import Mathlib

/-!
# Verification of the flat Merkle tree engine (`flatmerkletree.go`) and the
# node-graph tree (`merkletree.go`) of `merkle-go`

Shallow embedding. Bytes are modelled as `Nat`, byte slices as `List Nat`.
The digest primitive (`crypto/sha256` in the source) is an external,
pluggable capability, so every definition is parameterised over an abstract
digest function `H : List Nat → List Nat`.

Go methods that mutate their receiver (`Insert`, `Finalize`) are modelled as
functions returning the updated tree paired with the optional error; pure
queries (`RootHash`, `Proof`, `Verify`) return `Except`. A Go `nil` slice
argument is modelled as `none : Option Block`; a potential Go runtime panic
(out-of-range index in `Verify`) is modelled as the explicit error `Err.panicked`.
`int(math.Log2(float64 n))` in `Proof` is modelled as the exact `Nat.log2 n`.
-/

namespace MerkleGo

/-- Error kinds of the library (`errors.New` values and `fmt.Errorf` wrappers
collapse to their kind; a verification mismatch carries the step index as in
the Go error message). `panicked` models a Go runtime index-out-of-range panic. -/
inductive Err where
  | nilBlock
  | emptyMerkleTree
  | treeAlreadyFinalized
  | treeNotFinalized
  | blockNotFound
  | verificationMismatch (i : Nat)
  | panicked
deriving DecidableEq, Repr

/-- `type Block []byte`. -/
abbrev Block := List Nat

/-- `type TreeNode []byte`. -/
abbrev TreeNode := List Nat

/-- `FlatMerkleTree` struct. The zero value of `root` (`nil` slice) is `[]`. -/
structure FlatMerkleTree where
  blocks : List Block
  nodes : List TreeNode
  root : TreeNode
  finalized : Bool
deriving DecidableEq, Repr

/-- `leafNodePrefix = '\x00'`. -/
def leafNodeTag : Nat := 0

/-- `internalNodePrefix = '\x01'`. -/
def internalNodeTag : Nat := 1

/-- `hashNode(data, internal)`: digest of the data prefixed with one domain
byte — `0x01` for internal nodes, `0x00` (the zero byte of the fresh slice)
for leaves. -/
def hashNode (H : List Nat → List Nat) (data : List Nat) (internal : Bool) : TreeNode :=
  H ((if internal then internalNodeTag else leafNodeTag) :: data)

/-- `copyNode`: defensive copy; value identity in the embedding. -/
def copyNode (node : TreeNode) : TreeNode := node

/-- `NewMerkleTree(blocks...)`. -/
def NewMerkleTree (blocks : List Block) : FlatMerkleTree :=
  { blocks := blocks, nodes := [], root := [], finalized := false }

/-- `RootHash()`. -/
def RootHash (mt : FlatMerkleTree) : Except Err (List Nat) :=
  if mt.finalized = false then .error .treeNotFinalized
  else .ok (copyNode mt.root)

/-- `Insert(block)`: returns the updated receiver and the error. -/
def Insert (mt : FlatMerkleTree) (block : Option Block) : FlatMerkleTree × Option Err :=
  match block with
  | none => (mt, some .nilBlock)
  | some b =>
    if mt.finalized then (mt, some .treeAlreadyFinalized)
    else ({ mt with blocks := mt.blocks ++ [b] }, none)

/-- The `for i := 0; i < len(mt.blocks); i++` search of `findLeaf`:
first index (counting from `i`) whose block is byte-equal to `b`. -/
def findIdxFrom (b : Block) : List Block → Nat → Option Nat
  | [], _ => none
  | x :: xs, i => if x = b then some i else findIdxFrom b xs (i + 1)

/-- `findLeaf(block)`: array index of the first byte-equal block's leaf,
`len(mt.nodes) - len(mt.blocks) + i`. -/
def findLeaf (mt : FlatMerkleTree) (block : Option Block) : Except Err Nat :=
  match block with
  | none => .error .nilBlock
  | some b =>
    match findIdxFrom b mt.blocks 0 with
    | some i => .ok (mt.nodes.length - mt.blocks.length + i)
    | none => .error .blockNotFound

/-- The sibling-collecting loop of `Proof`: starting at `nodeIdx` with write
cursor `k`, repeatedly store the sibling digest (`nodeIdx-1` if even,
`nodeIdx+1` if odd) into slot `k` of the pre-allocated proof array and move to
the parent `(nodeIdx-1)/2`. Unwritten slots stay `none` (Go `nil`). -/
def proofLoop (nodes : List TreeNode) : Nat → Nat → List (Option TreeNode) → List (Option TreeNode)
  | nodeIdx, k, proof =>
    if h : nodeIdx > 0 then
      let sib := if nodeIdx % 2 = 0 then copyNode (nodes.getD (nodeIdx - 1) [])
                 else copyNode (nodes.getD (nodeIdx + 1) [])
      proofLoop nodes ((nodeIdx - 1) / 2) (k + 1) (proof.set k (some sib))
    else proof
termination_by nodeIdx _ _ => nodeIdx
decreasing_by omega

/-- `Proof(block)`: locate the leaf, collect the sibling path into an array of
`int(math.Log2(len(nodes)))` slots, and drop the trailing slot if it was left
`nil` (leaf one level above the deepest). -/
def Proof (H : List Nat → List Nat) (mt : FlatMerkleTree) (block : Option Block) :
    Except Err (List TreeNode) :=
  match block with
  | none => .error .nilBlock
  | some b =>
    if mt.finalized = false then .error .treeNotFinalized
    else
      match findLeaf mt (some b) with
      | .error e => .error e
      | .ok idx =>
        let arr := proofLoop mt.nodes idx 0 (List.replicate (Nat.log2 mt.nodes.length) none)
        if arr.getD (arr.length - 1) none = none then
          .ok ((arr.dropLast).map (fun o => o.getD []))
        else
          .ok (arr.map (fun o => o.getD []))

/-- The per-chunk loop of `Verify`: reconstruct the parent digest from the
stored current node and the supplied proof chunk (sibling on the left when the
current index is even), compare byte-for-byte with the stored parent node, and
climb. Node accesses are via `List.getElem?`; an out-of-range access is the
Go panic, surfaced as `Err.panicked`. -/
def verifyLoop (H : List Nat → List Nat) (nodes : List TreeNode) :
    Nat → Nat → List TreeNode → Except Err Unit
  | _, _, [] => .ok ()
  | currNodeIdx, i, proofChunk :: rest =>
    match nodes[currNodeIdx]? with
    | none => .error .panicked
    | some currentNode =>
      let proofNodeBytes := copyNode proofChunk
      let currentNodeBytes := copyNode currentNode
      let reconstructedNode :=
        if currNodeIdx % 2 = 0 then hashNode H (proofNodeBytes ++ currentNodeBytes) true
        else hashNode H (currentNodeBytes ++ proofNodeBytes) true
      let parentIdx := (currNodeIdx - 1) / 2
      match nodes[parentIdx]? with
      | none => .error .panicked
      | some parentNode =>
        if parentNode = reconstructedNode then verifyLoop H nodes parentIdx (i + 1) rest
        else .error (.verificationMismatch i)

/-- `Verify(block, proof)`. -/
def Verify (H : List Nat → List Nat) (mt : FlatMerkleTree) (block : Option Block)
    (proof : List TreeNode) : Except Err Unit :=
  if mt.finalized = false then .error .treeNotFinalized
  else
    match findLeaf mt block with
    | .error e => .error e
    | .ok leafIdx => verifyLoop H mt.nodes leafIdx 0 proof

/-- `hasChild(idx)`: `2*idx+1 < len(nodes) || 2*idx+2 < len(nodes)`. -/
def hasChild (n idx : Nat) : Bool :=
  2 * idx + 1 < n || 2 * idx + 2 < n

/-- The recursive `finalize(idx)` helper: post-order recursion writing each
internal digest `H(0x01 ∥ left ∥ right)` into slot `idx`; returns the updated
node array together with the digest at `idx`. `n` is `len(mt.nodes)`. -/
def finalizeAux (H : List Nat → List Nat) (n : Nat) (nodes : List TreeNode) (idx : Nat) :
    List TreeNode × TreeNode :=
  if h : hasChild n idx then
    let lp := finalizeAux H n nodes (2 * idx + 1)
    let rp := finalizeAux H n lp.1 (2 * idx + 2)
    let v := hashNode H (lp.2 ++ rp.2) true
    (rp.1.set idx v, v)
  else
    (nodes, nodes.getD idx [])
termination_by n - idx
decreasing_by
  · simp only [hasChild, Bool.or_eq_true, decide_eq_true_eq] at h; omega
  · simp only [hasChild, Bool.or_eq_true, decide_eq_true_eq] at h; omega

/-- The odd-count padding step of `Finalize`: append a second copy of the
last block's bytes. -/
def padBlocks (bs : List Block) : List Block :=
  if bs.length % 2 ≠ 0 then bs ++ [bs.getLast!] else bs

/-- The leaf-layout step of `Finalize`: a `2n-1`-slot array whose last `n`
slots hold the leaf digests `H(0x00 ∥ block)` in block order. -/
def initialNodes (H : List Nat → List Nat) (blocks : List Block) : List TreeNode :=
  List.replicate (2 * blocks.length - 1 - blocks.length) ([] : TreeNode) ++
    blocks.map (fun b => hashNode H b false)

/-- `Finalize()`: returns the updated receiver and the error. -/
def Finalize (H : List Nat → List Nat) (mt : FlatMerkleTree) : FlatMerkleTree × Option Err :=
  if mt.blocks.length = 0 then (mt, some .emptyMerkleTree)
  else if mt.finalized then (mt, some .treeAlreadyFinalized)
  else
    let blocks := padBlocks mt.blocks
    let nodes0 := initialNodes H blocks
    let p := finalizeAux H nodes0.length nodes0 0
    ({ blocks := blocks, nodes := p.1, root := p.2, finalized := true }, none)

/-- The sequence of sibling digests read off the stored node array, from the
leaf level upward, excluding the root: exactly what the `Proof` loop collects. -/
def siblingPath (nodes : List TreeNode) : Nat → List TreeNode
  | 0 => []
  | idx + 1 =>
    (if (idx + 1) % 2 = 0 then nodes.getD idx [] else nodes.getD (idx + 2) []) ::
      siblingPath nodes (idx / 2)
termination_by idx => idx
decreasing_by omega

/-- Number of steps from array index `idx` up to the root (index 0). -/
def pathDepth : Nat → Nat
  | 0 => 0
  | idx + 1 => pathDepth (idx / 2) + 1
termination_by idx => idx
decreasing_by omega

/-- `under idx j`: the parent chain `j, (j-1)/2, …` passes through `idx`
(`j` lies in the subtree rooted at array index `idx`). -/
def under (idx : Nat) : Nat → Bool
  | j =>
    if j < idx then false
    else if j = idx then true
    else under idx ((j - 1) / 2)
termination_by j => j
decreasing_by omega

/-- Building a tree by a sequence of `Insert` calls. -/
def insertAll (mt : FlatMerkleTree) (bs : List Block) : FlatMerkleTree :=
  bs.foldl (fun t b => (Insert t (some b)).1) mt

/-! ## The node-graph tree of `merkletree.go`

`Storable` items are modelled by the observable behaviour the build uses:
the result of `CalculateHash` (`none` models a returned error). The default
`sha256.New` hash chain `h.Write(data); h.Sum(nil)` is the abstract digest
`H data`. `Node.Parent` back-pointers are not representable in a purely
functional tree and are not needed by any claim; the other fields are kept. -/

/-- An item stored in the node-graph tree, by its `CalculateHash` result. -/
structure Storable where
  calcHash : Option (List Nat)
deriving DecidableEq, Repr

/-- `Node`: a leaf (with its `dup` flag and `Item`, possibly nil) or an
internal node with two children; both carry their `Hash`. -/
inductive GNode where
  | leaf (dup : Bool) (item : Option Storable) (digest : List Nat)
  | node (left right : GNode) (digest : List Nat)
deriving DecidableEq, Repr

instance : Inhabited GNode := ⟨.leaf false none []⟩

/-- The `Hash` field. -/
def GNode.digestOf : GNode → List Nat
  | .leaf _ _ d => d
  | .node _ _ d => d

/-- The `Item` field (nil on internal nodes). -/
def GNode.itemOf : GNode → Option Storable
  | .leaf _ it _ => it
  | .node _ _ _ => none

/-- One parent built by `buildIntermediate`:
`Hash = H(left.Hash ∥ right.Hash)` — no domain-separation prefix. -/
def mkParentNode (H : List Nat → List Nat) (a b : GNode) : GNode :=
  .node a b (H (a.digestOf ++ b.digestOf))

/-- One level of the `buildIntermediate` pairing loop (`i += 2`; when
`i+1 == len`, the right child is the left one again). -/
def levelUp (H : List Nat → List Nat) : List GNode → List GNode
  | a :: b :: rest => mkParentNode H a b :: levelUp H rest
  | [a] => [mkParentNode H a a]
  | [] => []

/-- `buildIntermediate`, with an explicit recursion budget. The Go function
returns as soon as the current level has exactly two nodes; on an empty or
singleton level it never returns (a singleton level loops forever), modelled
as `none`. Each recursive step at least halves a level of length ≥ 3, so a
budget of the initial level length is never exhausted. -/
def buildIntermediateFuel (H : List Nat → List Nat) : Nat → List GNode → Option GNode
  | _, [a, b] => some (mkParentNode H a b)
  | _, [] => none
  | _, [_] => none
  | 0, _ => none
  | fuel + 1, l => buildIntermediateFuel H fuel (levelUp H l)

/-- `buildIntermediate(leaves, t)`. -/
def buildIntermediate (H : List Nat → List Nat) (leaves : List GNode) : Option GNode :=
  buildIntermediateFuel H leaves.length leaves

/-- The leaf-building loop of `buildTree`: one leaf `Node` per content item,
propagating a `CalculateHash` error. -/
def buildLeaves : List Storable → Option (List GNode)
  | [] => some []
  | c :: cs =>
    match c.calcHash, buildLeaves cs with
    | some h, some rest => some (GNode.leaf false (some c) h :: rest)
    | _, _ => none

/-- The odd-count padding of `buildTree`: duplicate the last leaf `Node`
(same `Hash` and `Item`), flagged `dup`. -/
def padLeaves (leaves : List GNode) : List GNode :=
  if leaves.length % 2 = 1 then
    leaves ++ [GNode.leaf true (leaves.getLast!).itemOf (leaves.getLast!).digestOf]
  else leaves

/-- `buildTree(content, t)`: returns the root and the (possibly padded)
leaf level. -/
def buildTree (H : List Nat → List Nat) (content : List Storable) :
    Option (GNode × List GNode) :=
  match buildLeaves content with
  | none => none
  | some leaves0 =>
    let leaves := padLeaves leaves0
    match buildIntermediate H leaves with
    | none => none
    | some root => some (root, leaves)

/-- `MerkleTree` struct (the `hashFunc` field is the fixed `H`). -/
structure MerkleTree where
  root : GNode
  leaves : List GNode
  merkleRoot : List Nat
deriving Repr

/-- `NewTree(content)`. -/
def NewTree (H : List Nat → List Nat) (content : List Storable) : Option MerkleTree :=
  if content.length = 0 then none
  else
    match buildTree H content with
    | none => none
    | some rl => some { root := rl.1, leaves := rl.2, merkleRoot := rl.1.digestOf }

/-- Every internal node of the tree carries exactly
`H(left.Hash ∥ right.Hash)` — the digest of the two child hashes with no
domain-separation prefix byte. -/
def noPrefixHashed (H : List Nat → List Nat) : GNode → Bool
  | .leaf _ _ _ => true
  | .node l r d => (d == H (l.digestOf ++ r.digestOf)) && noPrefixHashed H l && noPrefixHashed H r

/-! ### Concrete instances used by witnesses -/

/-- A small concrete digest standing in for the pluggable hash function. -/
def hW : List Nat → List Nat := fun l => 7 :: l

/-- The tree obtained by finalizing (with digest `hW`) a flat tree built from
the blocks `[1]`, `[2]`, `[3]` — the odd count exercises the padding. -/
def mtW : FlatMerkleTree :=
  { blocks := [[1], [2], [3], [3]],
    nodes := [[7, 1, 7, 1, 7, 0, 1, 7, 0, 2, 7, 1, 7, 0, 3, 7, 0, 3],
              [7, 1, 7, 0, 1, 7, 0, 2], [7, 1, 7, 0, 3, 7, 0, 3],
              [7, 0, 1], [7, 0, 2], [7, 0, 3], [7, 0, 3]],
    root := [7, 1, 7, 1, 7, 0, 1, 7, 0, 2, 7, 1, 7, 0, 3, 7, 0, 3],
    finalized := true }

/-- The node-graph tree (digest `hW`) over three items hashing to `[1]`,
`[2]`, `[3]`. -/
def tW : MerkleTree :=
  { root := .node
      (.node (.leaf false (some ⟨some [1]⟩) [1]) (.leaf false (some ⟨some [2]⟩) [2]) [7, 1, 2])
      (.node (.leaf false (some ⟨some [3]⟩) [3]) (.leaf true (some ⟨some [3]⟩) [3]) [7, 3, 3])
      [7, 7, 1, 2, 7, 3, 3],
    leaves := [.leaf false (some ⟨some [1]⟩) [1], .leaf false (some ⟨some [2]⟩) [2],
               .leaf false (some ⟨some [3]⟩) [3], .leaf true (some ⟨some [3]⟩) [3]],
    merkleRoot := [7, 7, 1, 2, 7, 3, 3] }

/-! ## Lemmas about `under` (subtree membership in the heap layout) -/

theorem under_self (idx : Nat) : under idx idx = true := by
  rw [under]
  simp

theorem under_le {idx j : Nat} (h : under idx j = true) : idx ≤ j := by
  rw [under] at h
  by_cases hlt : j < idx
  · simp [hlt] at h
  · omega

theorem under_zero (j : Nat) : under 0 j = true := by
  induction j using Nat.strong_induction_on with
  | _ j ih =>
    rw [under]
    rcases Nat.eq_zero_or_pos j with h | h
    · simp [h]
    · have hne : ¬ j = 0 := by omega
      have hlt : ¬ j < 0 := by omega
      simp only [hlt, if_false, hne]
      exact ih ((j - 1) / 2) (by omega)

theorem under_step {idx j : Nat} (h : under idx j = true) (hne : j ≠ idx) :
    under idx ((j - 1) / 2) = true := by
  rw [under] at h
  have hidx : idx ≤ j := under_le (by rw [under]; exact h)
  have hlt : ¬ j < idx := by omega
  simp only [hlt, if_false, hne, if_false] at h
  exact h

theorem under_of_under_parent {idx j : Nat} (hj : idx < j)
    (h : under idx ((j - 1) / 2) = true) : under idx j = true := by
  rw [under]
  have h1 : ¬ j < idx := by omega
  have h2 : ¬ j = idx := by omega
  simp only [h1, if_false, h2, if_false]
  exact h

theorem under_left_child {j : Nat} (idx : Nat) (h : under idx j = true) :
    under idx (2 * j + 1) = true := by
  have hle : idx ≤ j := under_le h
  refine under_of_under_parent (by omega) ?_
  have : (2 * j + 1 - 1) / 2 = j := by omega
  rw [this]
  exact h

theorem under_right_child {j : Nat} (idx : Nat) (h : under idx j = true) :
    under idx (2 * j + 2) = true := by
  have hle : idx ≤ j := under_le h
  refine under_of_under_parent (by omega) ?_
  have : (2 * j + 2 - 1) / 2 = j := by omega
  rw [this]
  exact h

theorem under_lift_left {idx j : Nat} (h : under (2 * idx + 1) j = true) :
    under idx j = true := by
  induction j using Nat.strong_induction_on with
  | _ j ih =>
    by_cases hj : j = 2 * idx + 1
    · subst hj
      exact under_left_child idx (under_self idx)
    · have hge : 2 * idx + 1 ≤ j := under_le h
      have hstep := under_step h hj
      have hpar : under idx ((j - 1) / 2) = true := ih ((j - 1) / 2) (by omega) hstep
      exact under_of_under_parent (by omega) hpar

theorem under_lift_right {idx j : Nat} (h : under (2 * idx + 2) j = true) :
    under idx j = true := by
  induction j using Nat.strong_induction_on with
  | _ j ih =>
    by_cases hj : j = 2 * idx + 2
    · subst hj
      exact under_right_child idx (under_self idx)
    · have hge : 2 * idx + 2 ≤ j := under_le h
      have hstep := under_step h hj
      have hpar : under idx ((j - 1) / 2) = true := ih ((j - 1) / 2) (by omega) hstep
      exact under_of_under_parent (by omega) hpar

theorem under_split {idx j : Nat} (h : under idx j = true) :
    j = idx ∨ under (2 * idx + 1) j = true ∨ under (2 * idx + 2) j = true := by
  induction j using Nat.strong_induction_on with
  | _ j ih =>
    by_cases hj : j = idx
    · exact Or.inl hj
    · have hge : idx ≤ j := under_le h
      have hstep := under_step h hj
      rcases ih ((j - 1) / 2) (by omega) hstep with hp | hp | hp
      · -- the parent of j is idx itself, so j is one of idx's children
        have hchild : j = 2 * idx + 1 ∨ j = 2 * idx + 2 := by omega
        rcases hchild with hc | hc
        · exact Or.inr (Or.inl (hc ▸ under_self _))
        · exact Or.inr (Or.inr (hc ▸ under_self _))
      · refine Or.inr (Or.inl (under_of_under_parent ?_ hp))
        have := under_le hp
        omega
      · refine Or.inr (Or.inr (under_of_under_parent ?_ hp))
        have := under_le hp
        omega

theorem under_disjoint {idx j : Nat} (hl : under (2 * idx + 1) j = true)
    (hr : under (2 * idx + 2) j = true) : False := by
  induction j using Nat.strong_induction_on with
  | _ j ih =>
    by_cases hjl : j = 2 * idx + 1
    · have := under_le hr
      omega
    · by_cases hjr : j = 2 * idx + 2
      · subst hjr
        have hstep := under_step hl (by omega)
        have : (2 * idx + 2 - 1) / 2 = idx := by omega
        rw [this] at hstep
        have := under_le hstep
        omega
      · have hgl : 2 * idx + 1 ≤ j := under_le hl
        exact ih ((j - 1) / 2) (by omega) (under_step hl hjl) (under_step hr hjr)

/-! ## List access helpers -/

theorem getD_set_self {α : Type} {l : List α} {i : Nat} (a d : α) (h : i < l.length) :
    (l.set i a).getD i d = a := by
  simp [List.getD, List.getElem?_set, h]

theorem getD_set_ne {α : Type} {l : List α} {i j : Nat} (a d : α) (h : i ≠ j) :
    (l.set i a).getD j d = l.getD j d := by
  simp [List.getD, List.getElem?_set, h]

/-! ## Structure of `finalizeAux` -/

theorem hasChild_iff {n idx : Nat} : hasChild n idx = true ↔ 2 * idx + 1 < n := by
  simp only [hasChild, Bool.or_eq_true, decide_eq_true_eq]
  omega

theorem finalizeAux_length (H : List Nat → List Nat) (n : Nat) (nodes : List TreeNode)
    (idx : Nat) : ((finalizeAux H n nodes idx).1).length = nodes.length := by
  induction nodes, idx using finalizeAux.induct H n with
  | case1 nodes idx h lp ih1 ih2 =>
    rw [finalizeAux, dif_pos h]
    simpa using (ih2.trans ih1)
  | case2 nodes idx h =>
    rw [finalizeAux, dif_neg h]

theorem finalizeAux_frame (H : List Nat → List Nat) (n : Nat) (nodes : List TreeNode)
    (idx : Nat) {j : Nat} (hj : under idx j = false) :
    ((finalizeAux H n nodes idx).1).getD j [] = nodes.getD j [] := by
  induction nodes, idx using finalizeAux.induct H n with
  | case1 nodes idx h lp ih1 ih2 =>
    rw [finalizeAux, dif_pos h]
    have hne : idx ≠ j := by
      intro he
      rw [he] at hj
      rw [under_self] at hj
      exact Bool.true_eq_false.mp hj
    have hjl : under (2 * idx + 1) j = false := by
      by_contra hc
      have : under (2 * idx + 1) j = true := by
        cases hh : under (2 * idx + 1) j
        · exact absurd hh hc
        · rfl
      rw [under_lift_left this] at hj
      exact Bool.true_eq_false.mp hj
    have hjr : under (2 * idx + 2) j = false := by
      by_contra hc
      have : under (2 * idx + 2) j = true := by
        cases hh : under (2 * idx + 2) j
        · exact absurd hh hc
        · rfl
      rw [under_lift_right this] at hj
      exact Bool.true_eq_false.mp hj
    calc ((finalizeAux H n (finalizeAux H n nodes (2*idx+1)).1 (2*idx+2)).1.set idx
            (hashNode H ((finalizeAux H n nodes (2*idx+1)).2 ++
              (finalizeAux H n (finalizeAux H n nodes (2*idx+1)).1 (2*idx+2)).2) true)).getD j []
        = (finalizeAux H n (finalizeAux H n nodes (2*idx+1)).1 (2*idx+2)).1.getD j [] :=
          getD_set_ne _ _ hne
      _ = (finalizeAux H n nodes (2*idx+1)).1.getD j [] := ih2 hjr
      _ = nodes.getD j [] := ih1 hjl
  | case2 nodes idx h =>
    rw [finalizeAux, dif_neg h]

theorem finalizeAux_leaf_frame (H : List Nat → List Nat) (n : Nat) (nodes : List TreeNode)
    (idx : Nat) {j : Nat} (hj : ¬ 2 * j + 1 < n) :
    ((finalizeAux H n nodes idx).1).getD j [] = nodes.getD j [] := by
  induction nodes, idx using finalizeAux.induct H n with
  | case1 nodes idx h lp ih1 ih2 =>
    rw [finalizeAux, dif_pos h]
    have hne : idx ≠ j := by
      intro he
      rw [he] at h
      exact hj (hasChild_iff.mp h)
    calc ((finalizeAux H n (finalizeAux H n nodes (2*idx+1)).1 (2*idx+2)).1.set idx
            (hashNode H ((finalizeAux H n nodes (2*idx+1)).2 ++
              (finalizeAux H n (finalizeAux H n nodes (2*idx+1)).1 (2*idx+2)).2) true)).getD j []
        = (finalizeAux H n (finalizeAux H n nodes (2*idx+1)).1 (2*idx+2)).1.getD j [] :=
          getD_set_ne _ _ hne
      _ = (finalizeAux H n nodes (2*idx+1)).1.getD j [] := ih2
      _ = nodes.getD j [] := ih1
  | case2 nodes idx h =>
    rw [finalizeAux, dif_neg h]

theorem finalizeAux_snd (H : List Nat → List Nat) (n : Nat) (nodes : List TreeNode)
    (idx : Nat) (hlen : nodes.length = n) :
    (finalizeAux H n nodes idx).2 = ((finalizeAux H n nodes idx).1).getD idx [] := by
  rw [finalizeAux]
  by_cases h : hasChild n idx = true
  · rw [dif_pos h]
    have hidx : idx < n := by
      have := hasChild_iff.mp h
      omega
    have hlen2 : ((finalizeAux H n (finalizeAux H n nodes (2*idx+1)).1 (2*idx+2)).1).length = n := by
      rw [finalizeAux_length, finalizeAux_length, hlen]
    exact (getD_set_self _ _ (by rw [hlen2]; exact hidx)).symm
  · rw [dif_neg h]

/-- Main invariant of the post-order pass: after `finalizeAux` at `idx`, every
index `j` in the subtree of `idx` that has a child holds the internal digest
of its two children in the resulting array. -/
theorem finalizeAux_inv (H : List Nat → List Nat) (n : Nat) (nodes : List TreeNode)
    (idx : Nat) (hlen : nodes.length = n) {j : Nat} (hu : under idx j = true)
    (hj : 2 * j + 1 < n) :
    ((finalizeAux H n nodes idx).1).getD j [] =
      hashNode H (((finalizeAux H n nodes idx).1).getD (2 * j + 1) [] ++
        ((finalizeAux H n nodes idx).1).getD (2 * j + 2) []) true := by
  induction nodes, idx using finalizeAux.induct H n with
  | case2 nodes idx h =>
    exfalso
    have hle : idx ≤ j := under_le hu
    have : ¬ 2 * idx + 1 < n := fun hc => h (hasChild_iff.mpr hc)
    omega
  | case1 nodes idx h lp ih1 ih2 =>
    rw [finalizeAux, dif_pos h]
    simp only []
    have hlen1 : ((finalizeAux H n nodes (2 * idx + 1)).1).length = n := by
      rw [finalizeAux_length, hlen]
    have hlen2 : ((finalizeAux H n (finalizeAux H n nodes (2 * idx + 1)).1 (2 * idx + 2)).1).length = n := by
      rw [finalizeAux_length, hlen1]
    have hidxn : idx < n := by
      have := hasChild_iff.mp h
      omega
    rcases under_split hu with hj0 | hjl | hjr
    · -- j = idx : the digest just written, children untouched by the write
      subst hj0
      rw [getD_set_self _ _ (by rw [hlen2]; exact hidxn)]
      rw [getD_set_ne _ _ (by omega : j ≠ 2 * j + 1)]
      rw [getD_set_ne _ _ (by omega : j ≠ 2 * j + 2)]
      have hleft : (finalizeAux H n (finalizeAux H n nodes (2 * j + 1)).1 (2 * j + 2)).1.getD (2 * j + 1) [] =
          (finalizeAux H n nodes (2 * j + 1)).1.getD (2 * j + 1) [] := by
        refine finalizeAux_frame H n _ _ ?_
        cases hc : under (2 * j + 2) (2 * j + 1)
        · rfl
        · have := under_le hc
          omega
      have hlv : (finalizeAux H n nodes (2 * j + 1)).2 =
          (finalizeAux H n nodes (2 * j + 1)).1.getD (2 * j + 1) [] :=
        finalizeAux_snd H n nodes (2 * j + 1) hlen
      have hrv : (finalizeAux H n (finalizeAux H n nodes (2 * j + 1)).1 (2 * j + 2)).2 =
          (finalizeAux H n (finalizeAux H n nodes (2 * j + 1)).1 (2 * j + 2)).1.getD (2 * j + 2) [] :=
        finalizeAux_snd H n _ (2 * j + 2) hlen1
      rw [hleft, hlv, hrv]
    · -- j strictly under the left child
      have hjgt : 2 * idx + 1 ≤ j := under_le hjl
      have hul : ∀ m : Nat, under (2 * idx + 1) m = true → under (2 * idx + 2) m = false := by
        intro m hm
        cases hc : under (2 * idx + 2) m
        · rfl
        · exact absurd (under_disjoint hm hc) (fun x => x)
      have h1 : under (2 * idx + 1) (2 * j + 1) = true := under_left_child _ hjl
      have h2 : under (2 * idx + 1) (2 * j + 2) = true := under_right_child _ hjl
      rw [getD_set_ne _ _ (by omega : idx ≠ j)]
      rw [getD_set_ne _ _ (by omega : idx ≠ 2 * j + 1)]
      rw [getD_set_ne _ _ (by omega : idx ≠ 2 * j + 2)]
      rw [finalizeAux_frame H n _ _ (hul j hjl)]
      rw [finalizeAux_frame H n _ _ (hul _ h1)]
      rw [finalizeAux_frame H n _ _ (hul _ h2)]
      exact ih1 hlen hjl
    · -- j under the right child
      have hjgt : 2 * idx + 2 ≤ j := under_le hjr
      rw [getD_set_ne _ _ (by omega : idx ≠ j)]
      rw [getD_set_ne _ _ (by omega : idx ≠ 2 * j + 1)]
      rw [getD_set_ne _ _ (by omega : idx ≠ 2 * j + 2)]
      exact ih2 hlen1 hjr

/-! ## Post-conditions of `Finalize` -/

theorem padBlocks_even (bs : List Block) : (padBlocks bs).length % 2 = 0 := by
  unfold padBlocks
  split
  · simp only [List.length_append, List.length_cons, List.length_nil]
    omega
  · omega

theorem padBlocks_ge_two {bs : List Block} (h : bs.length ≠ 0) :
    2 ≤ (padBlocks bs).length := by
  have h1 : bs.length ≤ (padBlocks bs).length := by
    unfold padBlocks
    split
    · simp
    · simp
  have h2 := padBlocks_even bs
  omega

theorem initialNodes_length (H : List Nat → List Nat) (bs : List Block) :
    (initialNodes H bs).length = 2 * bs.length - 1 - bs.length + bs.length := by
  simp [initialNodes]

theorem initialNodes_leaf (H : List Nat → List Nat) (bs : List Block) {i : Nat}
    (hi : i < bs.length) :
    (initialNodes H bs).getD (2 * bs.length - 1 - bs.length + i) [] =
      hashNode H (bs.getD i []) false := by
  unfold initialNodes
  rw [List.getD, List.get?_eq_getElem?]
  rw [List.getElem?_append_right (by simp)]
  have hidx : 2 * bs.length - 1 - bs.length + i -
      (List.replicate (2 * bs.length - 1 - bs.length) ([] : TreeNode)).length = i := by
    simp
  rw [hidx, List.getElem?_map, List.getElem?_eq_getElem hi]
  rw [List.getD_eq_getElem bs [] hi]
  rfl

theorem Finalize_ok_eq {H : List Nat → List Nat} {mt mt' : FlatMerkleTree}
    (h : Finalize H mt = (mt', none)) :
    mt.blocks.length ≠ 0 ∧ mt.finalized = false ∧
      mt' = { blocks := padBlocks mt.blocks,
              nodes := (finalizeAux H (initialNodes H (padBlocks mt.blocks)).length
                          (initialNodes H (padBlocks mt.blocks)) 0).1,
              root := (finalizeAux H (initialNodes H (padBlocks mt.blocks)).length
                          (initialNodes H (padBlocks mt.blocks)) 0).2,
              finalized := true } := by
  unfold Finalize at h
  by_cases h0 : mt.blocks.length = 0
  · rw [if_pos h0] at h
    simp at h
  · rw [if_neg h0] at h
    by_cases h1 : mt.finalized
    · rw [if_pos h1] at h
      simp at h
    · rw [if_neg h1] at h
      simp only [Prod.mk.injEq] at h
      exact ⟨h0, by simpa using h1, h.1.symm⟩

theorem Finalize_blocks {H : List Nat → List Nat} {mt mt' : FlatMerkleTree}
    (h : Finalize H mt = (mt', none)) : mt'.blocks = padBlocks mt.blocks := by
  rw [(Finalize_ok_eq h).2.2]

theorem Finalize_finalized {H : List Nat → List Nat} {mt mt' : FlatMerkleTree}
    (h : Finalize H mt = (mt', none)) : mt'.finalized = true := by
  rw [(Finalize_ok_eq h).2.2]

theorem Finalize_blocks_even {H : List Nat → List Nat} {mt mt' : FlatMerkleTree}
    (h : Finalize H mt = (mt', none)) : mt'.blocks.length % 2 = 0 := by
  rw [Finalize_blocks h]
  exact padBlocks_even mt.blocks

theorem Finalize_blocks_ge_two {H : List Nat → List Nat} {mt mt' : FlatMerkleTree}
    (h : Finalize H mt = (mt', none)) : 2 ≤ mt'.blocks.length := by
  rw [Finalize_blocks h]
  exact padBlocks_ge_two (Finalize_ok_eq h).1

theorem Finalize_nodes_length {H : List Nat → List Nat} {mt mt' : FlatMerkleTree}
    (h : Finalize H mt = (mt', none)) :
    mt'.nodes.length = 2 * mt'.blocks.length - 1 := by
  obtain ⟨h0, h1, he⟩ := Finalize_ok_eq h
  have hm : 2 ≤ (padBlocks mt.blocks).length := padBlocks_ge_two h0
  rw [he]
  simp only [finalizeAux_length, initialNodes_length]
  omega

theorem Finalize_inv {H : List Nat → List Nat} {mt mt' : FlatMerkleTree}
    (h : Finalize H mt = (mt', none)) {j : Nat} (hj : 2 * j + 1 < mt'.nodes.length) :
    mt'.nodes.getD j [] =
      hashNode H (mt'.nodes.getD (2 * j + 1) [] ++ mt'.nodes.getD (2 * j + 2) []) true := by
  obtain ⟨h0, h1, he⟩ := Finalize_ok_eq h
  have hlen : mt'.nodes.length = (initialNodes H (padBlocks mt.blocks)).length := by
    rw [he]
    simp [finalizeAux_length]
  rw [hlen] at hj
  rw [he]
  exact finalizeAux_inv H _ _ 0 rfl (under_zero j) hj

theorem Finalize_leaf_slots {H : List Nat → List Nat} {mt mt' : FlatMerkleTree}
    (h : Finalize H mt = (mt', none)) {i : Nat} (hi : i < mt'.blocks.length) :
    mt'.nodes.getD (mt'.nodes.length - mt'.blocks.length + i) [] =
      hashNode H (mt'.blocks.getD i []) false := by
  obtain ⟨h0, h1, he⟩ := Finalize_ok_eq h
  have hm : 2 ≤ (padBlocks mt.blocks).length := padBlocks_ge_two h0
  have hblocks : mt'.blocks = padBlocks mt.blocks := by rw [he]
  have hn : mt'.nodes.length = 2 * mt'.blocks.length - 1 := Finalize_nodes_length h
  have hidx : mt'.nodes.length - mt'.blocks.length + i =
      2 * (padBlocks mt.blocks).length - 1 - (padBlocks mt.blocks).length + i := by
    rw [hn, hblocks]
  rw [hidx, he]
  have hileaf : ¬ 2 * (2 * (padBlocks mt.blocks).length - 1 - (padBlocks mt.blocks).length + i) + 1 <
      (initialNodes H (padBlocks mt.blocks)).length := by
    rw [initialNodes_length]
    omega
  rw [finalizeAux_leaf_frame H _ _ 0 hileaf]
  rw [hblocks] at hi
  exact initialNodes_leaf H (padBlocks mt.blocks) hi

theorem Finalize_root {H : List Nat → List Nat} {mt mt' : FlatMerkleTree}
    (h : Finalize H mt = (mt', none)) : mt'.root = mt'.nodes.getD 0 [] := by
  obtain ⟨h0, h1, he⟩ := Finalize_ok_eq h
  rw [he]
  exact finalizeAux_snd H _ _ 0 rfl

/-! ## The `findLeaf` search -/

theorem findIdxFrom_bounds {b : Block} : ∀ {l : List Block} {i0 i : Nat},
    findIdxFrom b l i0 = some i → i0 ≤ i ∧ i < i0 + l.length := by
  intro l
  induction l with
  | nil => intro i0 i h; simp [findIdxFrom] at h
  | cons x xs ih =>
    intro i0 i h
    rw [findIdxFrom] at h
    by_cases hx : x = b
    · rw [if_pos hx] at h
      injection h with h
      simp [← h]
    · rw [if_neg hx] at h
      have := ih h
      simp only [List.length_cons]
      omega

theorem findIdxFrom_of_mem {b : Block} : ∀ {l : List Block} (i0 : Nat), b ∈ l →
    ∃ i, findIdxFrom b l i0 = some i := by
  intro l
  induction l with
  | nil => intro i0 h; simp at h
  | cons x xs ih =>
    intro i0 h
    rw [findIdxFrom]
    by_cases hx : x = b
    · exact ⟨i0, by rw [if_pos hx]⟩
    · have hb : b ∈ xs := by
        rcases List.mem_cons.mp h with h' | h'
        · exact absurd h'.symm hx
        · exact h'
      obtain ⟨i, hi⟩ := ih (i0 + 1) hb
      exact ⟨i, by rw [if_neg hx]; exact hi⟩

theorem findIdxFrom_append {b : Block} : ∀ {l1 : List Block} {i0 i : Nat} (l2 : List Block),
    findIdxFrom b l1 i0 = some i → findIdxFrom b (l1 ++ l2) i0 = some i := by
  intro l1
  induction l1 with
  | nil => intro i0 i l2 h; simp [findIdxFrom] at h
  | cons x xs ih =>
    intro i0 i l2 h
    rw [findIdxFrom] at h
    rw [List.cons_append, findIdxFrom]
    by_cases hx : x = b
    · rw [if_pos hx] at h ⊢; exact h
    · rw [if_neg hx] at h ⊢
      exact ih l2 h

theorem mem_padBlocks {b : Block} {bs : List Block} (h : b ∈ bs) : b ∈ padBlocks bs := by
  unfold padBlocks
  split
  · exact List.mem_append_left _ h
  · exact h

/-- A block of the finalized tree is found, and its leaf index lies in the
leaf band `[len(blocks) - 1, len(nodes))`. -/
theorem findLeaf_ok_bounds {mt' : FlatMerkleTree} {b : Block} {leafIdx : Nat}
    (hn : mt'.nodes.length = 2 * mt'.blocks.length - 1) (hm : 2 ≤ mt'.blocks.length)
    (h : findLeaf mt' (some b) = .ok leafIdx) :
    mt'.blocks.length - 1 ≤ leafIdx ∧ leafIdx < mt'.nodes.length := by
  rw [findLeaf] at h
  rcases hfi : findIdxFrom b mt'.blocks 0 with _ | i
  · rw [hfi] at h; exact absurd h (by simp)
  · rw [hfi] at h
    injection h with h
    have hb := findIdxFrom_bounds hfi
    omega

/-! ## The sibling path collected by `Proof` -/

theorem pathDepth_eq_log2 : ∀ idx : Nat, pathDepth idx = Nat.log2 (idx + 1) := by
  intro idx
  induction idx using Nat.strong_induction_on with
  | _ idx ih =>
    match idx with
    | 0 =>
      rw [pathDepth]
      conv_rhs => rw [Nat.log2]
      rw [if_neg (by omega)]
    | j + 1 =>
      rw [pathDepth, ih (j / 2) (by omega)]
      conv_rhs => rw [Nat.log2]
      rw [if_pos (by omega : j + 1 + 1 ≥ 2)]
      have : (j + 1 + 1) / 2 = j / 2 + 1 := by omega
      rw [this]

theorem siblingPath_length (nodes : List TreeNode) : ∀ idx : Nat,
    (siblingPath nodes idx).length = pathDepth idx := by
  intro idx
  induction idx using Nat.strong_induction_on with
  | _ idx ih =>
    match idx with
    | 0 => rw [siblingPath, pathDepth]; rfl
    | j + 1 =>
      rw [siblingPath, pathDepth]
      simp only [List.length_cons]
      rw [ih (j / 2) (by omega)]

theorem set_append_length {α : Type} : ∀ (l1 : List α) (x a : α) (l2 : List α),
    (l1 ++ x :: l2).set l1.length a = l1 ++ a :: l2 := by
  intro l1
  induction l1 with
  | nil => intro x a l2; rfl
  | cons y ys ih =>
    intro x a l2
    rw [List.cons_append, List.length_cons, List.set_cons_succ, ih, List.cons_append]

/-- What the `Proof` loop writes: starting with `k` filled slots and `r` spare
`nil` slots, it appends the sibling path and leaves `r - depth` spare slots. -/
theorem proofLoop_spec (nodes : List TreeNode) : ∀ (idx : Nat) (l : List TreeNode) (r : Nat),
    pathDepth idx ≤ r →
    proofLoop nodes idx l.length (l.map some ++ List.replicate r none) =
      (l ++ siblingPath nodes idx).map some ++ List.replicate (r - pathDepth idx) none := by
  intro idx
  induction idx using Nat.strong_induction_on with
  | _ idx ih =>
    match idx with
    | 0 =>
      intro l r hr
      rw [proofLoop]
      simp [siblingPath, pathDepth]
    | j + 1 =>
      intro l r hr
      rw [pathDepth] at hr
      rcases r with _ | r'
      · omega
      rw [proofLoop, dif_pos (by omega : j + 1 > 0)]
      simp only [copyNode, List.replicate_succ]
      have hset : (List.map some l ++ (none : Option TreeNode) :: List.replicate r' none).set
          l.length (some (if (j + 1) % 2 = 0 then nodes.getD (j + 1 - 1) []
            else nodes.getD (j + 1 + 1) [])) =
          List.map some (l ++ [if (j + 1) % 2 = 0 then nodes.getD (j + 1 - 1) []
            else nodes.getD (j + 1 + 1) []]) ++ List.replicate r' none := by
        have hs := set_append_length (List.map some l) (none : Option TreeNode)
          (some (if (j + 1) % 2 = 0 then nodes.getD (j + 1 - 1) []
            else nodes.getD (j + 1 + 1) [])) (List.replicate r' none)
        rw [List.length_map] at hs
        rw [hs]
        simp
      rw [hset]
      have harithp : (j + 1 - 1) / 2 = j / 2 := by omega
      rw [harithp]
      have hlen : l.length + 1 = (l ++ [if (j + 1) % 2 = 0 then nodes.getD (j + 1 - 1) []
          else nodes.getD (j + 1 + 1) []]).length := by simp
      rw [hlen, ih (j / 2) (by omega) _ r' (by omega)]
      rw [siblingPath]
      have harith : j + 1 - 1 = j := by omega
      have harith2 : j + 1 + 1 = j + 2 := by omega
      rw [harith, harith2, pathDepth]
      have : r' + 1 - (pathDepth (j / 2) + 1) = r' - pathDepth (j / 2) := by omega
      rw [this]
      simp

theorem log2_mono {a b : Nat} (h : a ≤ b) : Nat.log2 a ≤ Nat.log2 b := by
  rw [Nat.log2_eq_log_two, Nat.log2_eq_log_two]
  exact Nat.log_mono_right h

theorem log2_double_bound {m : Nat} (hm : 1 ≤ m) : Nat.log2 (2 * m - 1) ≤ Nat.log2 m + 1 := by
  rw [Nat.log2_eq_log_two, Nat.log2_eq_log_two]
  have h1 : m < 2 ^ (Nat.log 2 m + 1) := Nat.lt_pow_succ_log_self (by norm_num) m
  have h2 : 2 * m - 1 < 2 ^ (Nat.log 2 m + 2) := by
    have he : 2 ^ (Nat.log 2 m + 2) = 2 * 2 ^ (Nat.log 2 m + 1) := by ring
    omega
  have h3 := Nat.log_lt_of_lt_pow (by omega : 2 * m - 1 ≠ 0) h2
  omega

theorem getD_map_some (l : List TreeNode) {i : Nat} (hi : i < l.length) :
    (l.map some).getD i none = some (l.getD i []) := by
  rw [List.getD, List.get?_eq_getElem?, List.getElem?_map, List.getElem?_eq_getElem hi,
    List.getD_eq_getElem l [] hi]
  rfl

/-- On a finalized tree, `Proof` of a found block returns exactly the sibling
path of its leaf index read off the node array (the trailing `nil` slot, when
the leaf sits one level above the deepest, having been dropped). -/
theorem Proof_eq_siblingPath {H : List Nat → List Nat} {mt mt' : FlatMerkleTree} {b : Block}
    {leafIdx : Nat} (hfin : Finalize H mt = (mt', none))
    (hfl : findLeaf mt' (some b) = .ok leafIdx) :
    Proof H mt' (some b) = .ok (siblingPath mt'.nodes leafIdx) := by
  have hfinal := Finalize_finalized hfin
  have hn := Finalize_nodes_length hfin
  have hm := Finalize_blocks_ge_two hfin
  obtain ⟨hlo, hhi⟩ := findLeaf_ok_bounds hn hm hfl
  have hd : pathDepth leafIdx ≤ Nat.log2 mt'.nodes.length := by
    rw [pathDepth_eq_log2]
    exact log2_mono (by omega)
  have hd2 : Nat.log2 mt'.nodes.length ≤ pathDepth leafIdx + 1 := by
    rw [pathDepth_eq_log2]
    have hb1 : Nat.log2 mt'.nodes.length ≤ Nat.log2 mt'.blocks.length + 1 := by
      rw [hn]
      exact log2_double_bound (by omega)
    have hb2 : Nat.log2 mt'.blocks.length ≤ Nat.log2 (leafIdx + 1) := log2_mono (by omega)
    omega
  have hd1 : 1 ≤ pathDepth leafIdx := by
    have hge : leafIdx ≥ 1 := by omega
    match leafIdx, hge with
    | j + 1, _ => rw [pathDepth]; omega
  have harr : proofLoop mt'.nodes leafIdx 0 (List.replicate (Nat.log2 mt'.nodes.length) none) =
      List.map some (siblingPath mt'.nodes leafIdx) ++
        List.replicate (Nat.log2 mt'.nodes.length - pathDepth leafIdx) none := by
    simpa using proofLoop_spec mt'.nodes leafIdx [] (Nat.log2 mt'.nodes.length) hd
  have hplen : (List.map some (siblingPath mt'.nodes leafIdx)).length = pathDepth leafIdx := by
    rw [List.length_map, siblingPath_length]
  rw [Proof]
  simp only [hfinal, Bool.true_eq_false, if_false, hfl]
  rw [harr]
  have hcases : Nat.log2 mt'.nodes.length - pathDepth leafIdx = 0 ∨
      Nat.log2 mt'.nodes.length - pathDepth leafIdx = 1 := by omega
  rcases hcases with hc | hc
  · rw [hc]
    simp only [List.replicate, List.append_nil]
    have hlast : (List.map some (siblingPath mt'.nodes leafIdx)).getD
        ((List.map some (siblingPath mt'.nodes leafIdx)).length - 1) none =
        some ((siblingPath mt'.nodes leafIdx).getD (pathDepth leafIdx - 1) []) := by
      rw [hplen]
      exact getD_map_some _ (by rw [siblingPath_length]; omega)
    rw [hlast]
    rw [if_neg (by simp)]
    simp only [List.map_map]
    have hcomp : ((fun (o : Option TreeNode) => o.getD []) ∘ some) = id := by
      funext x
      rfl
    rw [hcomp, List.map_id]
  · rw [hc]
    simp only [List.replicate, List.replicate_succ]
    have hlast : (List.map some (siblingPath mt'.nodes leafIdx) ++ [none]).getD
        ((List.map some (siblingPath mt'.nodes leafIdx) ++ [none]).length - 1) none =
        none := by
      rw [List.getD, List.get?_eq_getElem?]
      rw [List.getElem?_append_right (by simp)]
      simp
    rw [hlast, if_pos rfl]
    rw [List.dropLast_concat]
    simp only [List.map_map]
    have hcomp : ((fun (o : Option TreeNode) => o.getD []) ∘ some) = id := by
      funext x
      rfl
    rw [hcomp, List.map_id]

/-! ## The `Verify` loop -/

theorem Verify_eq_loop {H : List Nat → List Nat} {mt' : FlatMerkleTree} {blk : Option Block}
    {leafIdx : Nat} (proof : List TreeNode) (hfinal : mt'.finalized = true)
    (hfl : findLeaf mt' blk = .ok leafIdx) :
    Verify H mt' blk proof = verifyLoop H mt'.nodes leafIdx 0 proof := by
  rw [Verify]
  simp only [hfinal, Bool.true_eq_false, if_false, hfl]

/-- Unfolding of one `Verify` loop step when both node accesses are in range. -/
theorem verifyLoop_cons (H : List Nat → List Nat) (nodes : List TreeNode)
    (currNodeIdx i : Nat) (proofChunk : TreeNode) (rest : List TreeNode)
    (cur par : TreeNode) (hc : nodes[currNodeIdx]? = some cur)
    (hp : nodes[(currNodeIdx - 1) / 2]? = some par) :
    verifyLoop H nodes currNodeIdx i (proofChunk :: rest) =
      if par = (if currNodeIdx % 2 = 0 then hashNode H (proofChunk ++ cur) true
                else hashNode H (cur ++ proofChunk) true)
      then verifyLoop H nodes ((currNodeIdx - 1) / 2) (i + 1) rest
      else .error (.verificationMismatch i) := by
  rw [verifyLoop, hc]
  simp only [copyNode]
  rw [hp]

/-- Against a node array satisfying the parent-digest invariant, the loop of
`Verify` accepts every prefix (`take k`) of the sibling path of any in-range
index: each reconstructed digest coincides with the stored parent. -/
theorem verifyLoop_take_path (H : List Nat → List Nat) (nodes : List TreeNode)
    (hInv : ∀ j, 2 * j + 1 < nodes.length →
      nodes.getD j [] =
        hashNode H (nodes.getD (2 * j + 1) [] ++ nodes.getD (2 * j + 2) []) true) :
    ∀ idx, idx < nodes.length → ∀ k i,
      verifyLoop H nodes idx i ((siblingPath nodes idx).take k) = .ok () := by
  intro idx
  induction idx using Nat.strong_induction_on with
  | _ idx ih =>
    match idx with
    | 0 =>
      intro _ k i
      rw [siblingPath]
      rw [List.take_nil]
      rfl
    | j + 1 =>
      intro hlt k i
      rcases k with _ | k'
      · rw [List.take_zero]
        rfl
      rw [siblingPath, List.take_succ_cons]
      have hparlt : (j + 1 - 1) / 2 < nodes.length := by omega
      rw [verifyLoop_cons H nodes (j + 1) i _ _ (nodes.getD (j + 1) [])
        (nodes.getD ((j + 1 - 1) / 2) [])
        (by rw [List.getElem?_eq_getElem hlt, List.getD_eq_getElem _ _ hlt])
        (by rw [List.getElem?_eq_getElem hparlt, List.getD_eq_getElem _ _ hparlt])]
      have hstep : (j + 1 - 1) / 2 = j / 2 := by omega
      by_cases hev : (j + 1) % 2 = 0
      · -- current index even: it is the right child `2p+2`; sibling is `j = 2p+1`
        have hj1 : 2 * ((j + 1 - 1) / 2) + 1 = j := by omega
        have hj2 : 2 * ((j + 1 - 1) / 2) + 2 = j + 1 := by omega
        have hinv := hInv ((j + 1 - 1) / 2) (by omega)
        rw [hj1, hj2] at hinv
        rw [if_pos hev, if_pos hev]
        rw [hinv, if_pos rfl, hstep]
        exact ih (j / 2) (by omega) (by omega) k' (i + 1)
      · -- current index odd: it is the left child `2p+1`; sibling is `j+2 = 2p+2`
        have hj1 : 2 * ((j + 1 - 1) / 2) + 1 = j + 1 := by omega
        have hj2 : 2 * ((j + 1 - 1) / 2) + 2 = j + 2 := by omega
        have hinv := hInv ((j + 1 - 1) / 2) (by omega)
        rw [hj1, hj2] at hinv
        rw [if_neg hev, if_neg hev]
        rw [hinv, if_pos rfl, hstep]
        exact ih (j / 2) (by omega) (by omega) k' (i + 1)

/-- The loop of `Verify` never performs an out-of-range node access when it
starts at an in-range index: every outcome is success or a mismatch error. -/
theorem verifyLoop_no_panic (H : List Nat → List Nat) (nodes : List TreeNode) :
    ∀ (proof : List TreeNode) (idx i : Nat), idx < nodes.length →
      verifyLoop H nodes idx i proof = .ok () ∨
        ∃ j, verifyLoop H nodes idx i proof = .error (.verificationMismatch j) := by
  intro proof
  induction proof with
  | nil =>
    intro idx i _
    exact Or.inl rfl
  | cons chunk rest ih =>
    intro idx i hlt
    have hparlt : (idx - 1) / 2 < nodes.length := by omega
    rw [verifyLoop_cons H nodes idx i chunk rest nodes[idx] nodes[(idx - 1) / 2]
      (List.getElem?_eq_getElem hlt) (List.getElem?_eq_getElem hparlt)]
    by_cases heq : nodes[(idx - 1) / 2] =
        (if idx % 2 = 0 then hashNode H (chunk ++ nodes[idx]) true
         else hashNode H (nodes[idx] ++ chunk) true)
    · rw [if_pos heq]
      exact ih ((idx - 1) / 2) (i + 1) hparlt
    · rw [if_neg heq]
      exact Or.inr ⟨i, rfl⟩

/-- A block inserted before finalization is found by `findLeaf` afterwards. -/
theorem findLeaf_ok_of_mem {H : List Nat → List Nat} {mt mt' : FlatMerkleTree} {b : Block}
    (hfin : Finalize H mt = (mt', none)) (hb : b ∈ mt.blocks) :
    ∃ leafIdx, findLeaf mt' (some b) = .ok leafIdx := by
  have hblocks := Finalize_blocks hfin
  have hmem : b ∈ mt'.blocks := by
    rw [hblocks]
    exact mem_padBlocks hb
  obtain ⟨i, hi⟩ := findIdxFrom_of_mem 0 hmem
  refine ⟨mt'.nodes.length - mt'.blocks.length + i, ?_⟩
  rw [findLeaf, hi]

/-- C1: for every finalized `FlatMerkleTree` and every block `b` byte-equal to
an originally inserted block, `Verify(b, Proof(b))` succeeds (returns no
error). -/
theorem flat_inclusion_soundness {H : List Nat → List Nat} {mt mt' : FlatMerkleTree}
    {b : Block} {pf : List TreeNode} (hfin : Finalize H mt = (mt', none))
    (hb : b ∈ mt.blocks) (hpf : Proof H mt' (some b) = .ok pf) :
    Verify H mt' (some b) pf = .ok () := by
  obtain ⟨leafIdx, hfl⟩ := findLeaf_ok_of_mem hfin hb
  have hpath := Proof_eq_siblingPath hfin hfl
  rw [hpf] at hpath
  injection hpath with hpath
  have hn := Finalize_nodes_length hfin
  have hm := Finalize_blocks_ge_two hfin
  obtain ⟨hlo, hhi⟩ := findLeaf_ok_bounds hn hm hfl
  rw [Verify_eq_loop pf (Finalize_finalized hfin) hfl, hpath]
  have hok := verifyLoop_take_path H mt'.nodes (fun j hj => Finalize_inv hfin hj) leafIdx hhi
    (siblingPath mt'.nodes leafIdx).length 0
  rw [List.take_length] at hok
  exact hok

/-- C9: `Verify` succeeds on every prefix (`take k`, any `k`, including the
empty proof) of `Proof(b)`: it only checks the supplied entries against the
stored parent nodes and never requires reaching the root. -/
theorem verify_accepts_proof_prefixes {H : List Nat → List Nat} {mt mt' : FlatMerkleTree}
    {b : Block} {pf : List TreeNode} (k : Nat) (hfin : Finalize H mt = (mt', none))
    (hb : b ∈ mt.blocks) (hpf : Proof H mt' (some b) = .ok pf) :
    Verify H mt' (some b) (pf.take k) = .ok () := by
  obtain ⟨leafIdx, hfl⟩ := findLeaf_ok_of_mem hfin hb
  have hpath := Proof_eq_siblingPath hfin hfl
  rw [hpf] at hpath
  injection hpath with hpath
  have hn := Finalize_nodes_length hfin
  have hm := Finalize_blocks_ge_two hfin
  obtain ⟨hlo, hhi⟩ := findLeaf_ok_bounds hn hm hfl
  rw [Verify_eq_loop (pf.take k) (Finalize_finalized hfin) hfl, hpath]
  exact verifyLoop_take_path H mt'.nodes (fun j hj => Finalize_inv hfin hj) leafIdx hhi k 0

/-- C10: `Verify` is total and panic-free on arbitrary proof input for a
finalized tree and a present block: every node access is in range (the parent
index `(i-1)/2` of an in-range index is in range and index 0 is its own
parent), so the result is success or a mismatch error — never the modelled
out-of-range panic. -/
theorem verify_total_no_panic {H : List Nat → List Nat} {mt mt' : FlatMerkleTree}
    {b : Block} (pf : List TreeNode) (hfin : Finalize H mt = (mt', none))
    (hb : b ∈ mt.blocks) :
    Verify H mt' (some b) pf = .ok () ∨
      ∃ i, Verify H mt' (some b) pf = .error (.verificationMismatch i) := by
  obtain ⟨leafIdx, hfl⟩ := findLeaf_ok_of_mem hfin hb
  have hn := Finalize_nodes_length hfin
  have hm := Finalize_blocks_ge_two hfin
  obtain ⟨hlo, hhi⟩ := findLeaf_ok_bounds hn hm hfl
  rw [Verify_eq_loop pf (Finalize_finalized hfin) hfl]
  exact verifyLoop_no_panic H mt'.nodes pf leafIdx 0 hhi

/-- C2: after a successful `Finalize` on a tree with at least one block, the
block list has even length (an odd count being padded with a duplicate of the
last block's bytes as a genuine extra leaf), `len(nodes) = 2*len(blocks) - 1`,
the last `len(blocks)` slots hold the leaf digests `H(0x00 ∥ block)` in block
order, every other slot `j` holds `H(0x01 ∥ nodes[2j+1] ∥ nodes[2j+2])`, the
cached root equals `nodes[0]`, and `finalized` is set. -/
theorem finalize_postcondition {H : List Nat → List Nat} {mt mt' : FlatMerkleTree}
    (hfin : Finalize H mt = (mt', none)) :
    mt'.blocks.length % 2 = 0 ∧
    mt'.blocks = (if mt.blocks.length % 2 = 1 then mt.blocks ++ [mt.blocks.getLast!]
                  else mt.blocks) ∧
    mt'.nodes.length = 2 * mt'.blocks.length - 1 ∧
    (∀ i, i < mt'.blocks.length →
      mt'.nodes.getD (mt'.nodes.length - mt'.blocks.length + i) [] =
        hashNode H (mt'.blocks.getD i []) false) ∧
    (∀ j, 2 * j + 1 < mt'.nodes.length →
      mt'.nodes.getD j [] =
        hashNode H (mt'.nodes.getD (2 * j + 1) [] ++ mt'.nodes.getD (2 * j + 2) []) true) ∧
    mt'.root = mt'.nodes.getD 0 [] ∧
    mt'.finalized = true := by
  refine ⟨Finalize_blocks_even hfin, ?_, Finalize_nodes_length hfin,
    fun i hi => Finalize_leaf_slots hfin hi, fun j hj => Finalize_inv hfin hj,
    Finalize_root hfin, Finalize_finalized hfin⟩
  rw [Finalize_blocks hfin]
  unfold padBlocks
  by_cases h : mt.blocks.length % 2 = 1
  · rw [if_pos (by omega), if_pos h]
  · rw [if_neg (by omega), if_neg h]

theorem findIdxFrom_padBlocks {b : Block} {bs : List Block} {i : Nat}
    (h : findIdxFrom b bs 0 = some i) : findIdxFrom b (padBlocks bs) 0 = some i := by
  unfold padBlocks
  split
  · exact findIdxFrom_append _ h
  · exact h

/-- C3: on a finalized tree, `Proof(b)` locates the leaf of `b` at array index
`(total_nodes − block_count) + first_matching_position` — the earliest
byte-equal match among the originally inserted blocks — and returns exactly
the sibling sequence read off the node array from the leaf level upward,
excluding the root (the sibling at `idx-1` for even `idx`, `idx+1` for odd,
climbing to `(idx-1)/2`; a trailing empty slot is dropped). -/
theorem proof_locates_and_walks {H : List Nat → List Nat} {mt mt' : FlatMerkleTree}
    {b : Block} {i : Nat} (hfin : Finalize H mt = (mt', none))
    (hfind : findIdxFrom b mt.blocks 0 = some i) :
    findLeaf mt' (some b) = .ok (mt'.nodes.length - mt'.blocks.length + i) ∧
    Proof H mt' (some b) =
      .ok (siblingPath mt'.nodes (mt'.nodes.length - mt'.blocks.length + i)) := by
  have hpad : findIdxFrom b mt'.blocks 0 = some i := by
    rw [Finalize_blocks hfin]
    exact findIdxFrom_padBlocks hfind
  have hfl : findLeaf mt' (some b) = .ok (mt'.nodes.length - mt'.blocks.length + i) := by
    rw [findLeaf, hpad]
  exact ⟨hfl, Proof_eq_siblingPath hfin hfl⟩

/-- C4: lifecycle guards — `Insert` on a finalized tree returns
`AlreadyFinalized`; `RootHash`, `Proof` and `Verify` on a non-finalized tree
return `NotFinalized`; a second `Finalize` after a successful one returns
`AlreadyFinalized`. -/
theorem lifecycle_guards (H : List Nat → List Nat) (mtF mtU mt0 mt0' : FlatMerkleTree)
    (b : Block) (blk : Option Block) (pf : List TreeNode)
    (hfin : mtF.finalized = true) (hnot : mtU.finalized = false)
    (hok : Finalize H mt0 = (mt0', none)) :
    Insert mtF (some b) = (mtF, some .treeAlreadyFinalized) ∧
    RootHash mtU = .error .treeNotFinalized ∧
    Proof H mtU (some b) = .error .treeNotFinalized ∧
    Verify H mtU blk pf = .error .treeNotFinalized ∧
    Finalize H mt0' = (mt0', some .treeAlreadyFinalized) := by
  refine ⟨?_, ?_, ?_, ?_, ?_⟩
  · rw [Insert, if_pos hfin]
  · rw [RootHash, if_pos hnot]
  · rw [Proof, if_pos hnot]
  · rw [Verify, if_pos hnot]
  · have h1 := Finalize_finalized hok
    have h2 : ¬ mt0'.blocks.length = 0 := by
      have := Finalize_blocks_ge_two hok
      omega
    rw [Finalize, if_neg h2, if_pos h1]

/-- C5: duplicate-padding equivalence — for distinct blocks `a`, `b`, `c`,
the root hash of a finalized tree built from `[a,b,c]` equals the root hash
of a finalized tree built from `[a,b,c,c]`. -/
theorem padding_equivalence (H : List Nat → List Nat) (a b c : Block)
    (hab : a ≠ b) (hac : a ≠ c) (hbc : b ≠ c) :
    RootHash (Finalize H (NewMerkleTree [a, b, c])).1 =
      RootHash (Finalize H (NewMerkleTree [a, b, c, c])).1 := by
  have hpad : padBlocks [a, b, c] = padBlocks [a, b, c, c] := by
    unfold padBlocks
    rw [if_pos (by norm_num), if_neg (by norm_num)]
    simp [List.getLast!]
  have hsame : Finalize H (NewMerkleTree [a, b, c]) = Finalize H (NewMerkleTree [a, b, c, c]) := by
    unfold Finalize NewMerkleTree
    rw [if_neg (by norm_num), if_neg (by norm_num), if_neg (by simp), if_neg (by simp), hpad]
  rw [hsame]

/-- C6: `Finalize` is atomic on failure — whenever it returns an error (which
is `EmptyTree` or `AlreadyFinalized`), the tree is returned exactly as it was:
no node array allocated, no padding block appended, no field changed. -/
theorem finalize_atomic_on_failure {H : List Nat → List Nat} {mt : FlatMerkleTree} {e : Err}
    (h : (Finalize H mt).2 = some e) :
    (Finalize H mt).1 = mt ∧ (e = .emptyMerkleTree ∨ e = .treeAlreadyFinalized) := by
  unfold Finalize at h ⊢
  by_cases h0 : mt.blocks.length = 0
  · rw [if_pos h0] at h ⊢
    refine ⟨rfl, Or.inl ?_⟩
    simpa using h.symm
  · rw [if_neg h0] at h ⊢
    by_cases h1 : mt.finalized
    · rw [if_pos h1] at h ⊢
      refine ⟨rfl, Or.inr ?_⟩
      simpa using h.symm
    · rw [if_neg h1] at h
      simp at h

theorem insertAll_state (bs : List Block) : ∀ (l : List Block) (n : List TreeNode)
    (r : TreeNode), insertAll ⟨l, n, r, false⟩ bs = ⟨l ++ bs, n, r, false⟩ := by
  induction bs with
  | nil =>
    intro l n r
    simp [insertAll]
  | cons x xs ih =>
    intro l n r
    have hstep : (Insert ⟨l, n, r, false⟩ (some x)).1 = ⟨l ++ [x], n, r, false⟩ := by
      simp [Insert]
    calc insertAll ⟨l, n, r, false⟩ (x :: xs)
        = insertAll (Insert ⟨l, n, r, false⟩ (some x)).1 xs := by
          unfold insertAll
          rw [List.foldl_cons]
      _ = insertAll ⟨l ++ [x], n, r, false⟩ xs := by rw [hstep]
      _ = ⟨(l ++ [x]) ++ xs, n, r, false⟩ := ih (l ++ [x]) n r
      _ = ⟨l ++ x :: xs, n, r, false⟩ := by simp

/-- C7: determinism — two trees independently built by inserting the same
ordered block sequence (whatever junk their pre-finalization `nodes`/`root`
fields hold) and then finalized return byte-equal `RootHash` values. -/
theorem root_deterministic (H : List Nat → List Nat) (bs : List Block)
    (n1 n2 : List TreeNode) (r1 r2 : TreeNode) :
    RootHash (Finalize H (insertAll ⟨[], n1, r1, false⟩ bs)).1 =
      RootHash (Finalize H (insertAll ⟨[], n2, r2, false⟩ bs)).1 := by
  rw [insertAll_state, insertAll_state]
  rcases bs with _ | ⟨x, xs⟩
  · rfl
  · rw [Finalize, Finalize]
    simp only [List.nil_append]
    rw [if_neg (by simp), if_neg (by simp)]
    rfl

/-! ## The node-graph tree: absence of domain separation (C8) -/

theorem getLast!_mem {α : Type} [Inhabited α] : ∀ (l : List α), l ≠ [] → l.getLast! ∈ l := by
  intro l h
  match l with
  | a :: as => exact List.getLast_mem (fun hc => List.noConfusion hc)

theorem noPrefixHashed_mkParent (H : List Nat → List Nat) (a b : GNode)
    (ha : noPrefixHashed H a = true) (hb : noPrefixHashed H b = true) :
    noPrefixHashed H (mkParentNode H a b) = true := by
  simp [mkParentNode, noPrefixHashed, GNode.digestOf, ha, hb]

theorem noPrefix_levelUp (H : List Nat → List Nat) : ∀ l : List GNode,
    (∀ g ∈ l, noPrefixHashed H g = true) → ∀ g ∈ levelUp H l, noPrefixHashed H g = true := by
  intro l
  induction l using levelUp.induct H with
  | case1 a b rest ih =>
    intro hl g hg
    rw [levelUp] at hg
    rcases List.mem_cons.mp hg with hg | hg
    · subst hg
      exact noPrefixHashed_mkParent H a b (hl a (by simp)) (hl b (by simp))
    · exact ih (fun g' hg' => hl g' (by simp [hg'])) g hg
  | case2 a =>
    intro hl g hg
    rw [levelUp] at hg
    rcases List.mem_cons.mp hg with hg | hg
    · subst hg
      exact noPrefixHashed_mkParent H a a (hl a (by simp)) (hl a (by simp))
    · simp at hg
  | case3 =>
    intro _ g hg
    rw [levelUp] at hg
    simp at hg

theorem noPrefix_buildFuel (H : List Nat → List Nat) : ∀ (fuel : Nat) (l : List GNode)
    (r : GNode), (∀ g ∈ l, noPrefixHashed H g = true) →
    buildIntermediateFuel H fuel l = some r → noPrefixHashed H r = true := by
  intro fuel
  induction fuel with
  | zero =>
    intro l r hl hr
    match l with
    | [] => exact absurd hr (by simp [buildIntermediateFuel])
    | [a] => exact absurd hr (by simp [buildIntermediateFuel])
    | [a, b] =>
      have : r = mkParentNode H a b := by
        have he : buildIntermediateFuel H 0 [a, b] = some (mkParentNode H a b) := rfl
        rw [he] at hr
        exact (Option.some.injEq _ _ ▸ hr).symm
      rw [this]
      exact noPrefixHashed_mkParent H a b (hl a (by simp)) (hl b (by simp))
    | a :: b :: c :: rest => exact absurd hr (by simp [buildIntermediateFuel])
  | succ f ih =>
    intro l r hl hr
    match l with
    | [] => exact absurd hr (by simp [buildIntermediateFuel])
    | [a] => exact absurd hr (by simp [buildIntermediateFuel])
    | [a, b] =>
      have : r = mkParentNode H a b := by
        have he : buildIntermediateFuel H (f + 1) [a, b] = some (mkParentNode H a b) := rfl
        rw [he] at hr
        exact (Option.some.injEq _ _ ▸ hr).symm
      rw [this]
      exact noPrefixHashed_mkParent H a b (hl a (by simp)) (hl b (by simp))
    | a :: b :: c :: rest =>
      have he : buildIntermediateFuel H (f + 1) (a :: b :: c :: rest) =
          buildIntermediateFuel H f (levelUp H (a :: b :: c :: rest)) := rfl
      rw [he] at hr
      exact ih (levelUp H (a :: b :: c :: rest)) r
        (noPrefix_levelUp H (a :: b :: c :: rest) hl) hr

theorem buildLeaves_spec (H : List Nat → List Nat) : ∀ {content : List Storable}
    {leaves : List GNode}, buildLeaves content = some leaves → ∀ g ∈ leaves,
      (∃ s ∈ content, s.calcHash = some g.digestOf) ∧ noPrefixHashed H g = true := by
  intro content
  induction content with
  | nil =>
    intro leaves h g hg
    rw [buildLeaves] at h
    injection h with h
    rw [← h] at hg
    simp at hg
  | cons c cs ih =>
    intro leaves h g hg
    rw [buildLeaves] at h
    rcases hc : c.calcHash with _ | d
    · rw [hc] at h
      simp at h
    · rcases hbl : buildLeaves cs with _ | rest
      · rw [hc, hbl] at h
        simp at h
      · rw [hc, hbl] at h
        injection h with h
        rw [← h] at hg
        rcases List.mem_cons.mp hg with hg | hg
        · subst hg
          refine ⟨⟨c, by simp, ?_⟩, rfl⟩
          rw [hc]
          rfl
        · obtain ⟨⟨s, hs, hsh⟩, hnp⟩ := ih hbl g hg
          exact ⟨⟨s, by simp [hs], hsh⟩, hnp⟩

theorem padLeaves_spec (H : List Nat → List Nat) {content : List Storable} {l : List GNode}
    (h : ∀ g ∈ l, (∃ s ∈ content, s.calcHash = some g.digestOf) ∧ noPrefixHashed H g = true) :
    ∀ g ∈ padLeaves l,
      (∃ s ∈ content, s.calcHash = some g.digestOf) ∧ noPrefixHashed H g = true := by
  intro g hg
  rw [padLeaves] at hg
  by_cases hc : l.length % 2 = 1
  · rw [if_pos hc] at hg
    rcases List.mem_append.mp hg with hg | hg
    · exact h g hg
    · have hgd : g = GNode.leaf true (l.getLast!).itemOf (l.getLast!).digestOf := by
        simpa using hg
      have hne : l ≠ [] := by
        intro he
        rw [he] at hc
        simp at hc
      obtain ⟨⟨s, hs, hsh⟩, _⟩ := h l.getLast! (getLast!_mem l hne)
      subst hgd
      exact ⟨⟨s, hs, hsh⟩, rfl⟩
  · rw [if_neg hc] at hg
    exact h g hg

/-- C8: in the node-graph tree (`NewTree`/`buildIntermediate`), every parent
digest is the digest of `left_child_hash ∥ right_child_hash` with no
domain-separation prefix byte, and leaf hashes are the items' `CalculateHash`
outputs with no prefix — unlike the flat engine's `0x00`/`0x01` leaf/internal
prefixes, recalled by the last two conjuncts. -/
theorem nodeGraph_no_domain_separation (H : List Nat → List Nat) {content : List Storable}
    {t : MerkleTree} (h : NewTree H content = some t) :
    noPrefixHashed H t.root = true ∧
    (∀ g ∈ t.leaves, ∃ s ∈ content, s.calcHash = some g.digestOf) ∧
    (∀ data : List Nat, hashNode H data false = H (leafNodeTag :: data)) ∧
    (∀ data : List Nat, hashNode H data true = H (internalNodeTag :: data)) := by
  rw [NewTree] at h
  by_cases h0 : content.length = 0
  · rw [if_pos h0] at h
    exact absurd h (by simp)
  · rw [if_neg h0] at h
    rcases hbt : buildTree H content with _ | rl
    · rw [hbt] at h
      simp at h
    · rw [hbt] at h
      injection h with h
      rw [buildTree] at hbt
      rcases hbl : buildLeaves content with _ | leaves0
      · rw [hbl] at hbt
        simp at hbt
      · rw [hbl] at hbt
        simp only [] at hbt
        rcases hbi : buildIntermediate H (padLeaves leaves0) with _ | root
        · rw [hbi] at hbt
          simp at hbt
        · rw [hbi] at hbt
          injection hbt with hbt
          have hleaves := padLeaves_spec H (buildLeaves_spec H hbl)
          have hroot : noPrefixHashed H root = true := by
            rw [buildIntermediate] at hbi
            exact noPrefix_buildFuel H (padLeaves leaves0).length (padLeaves leaves0) root
              (fun g hg => (hleaves g hg).2) hbi
          have ht1 : t.root = root := by
            rw [← h, ← hbt]
          have ht2 : t.leaves = padLeaves leaves0 := by
            rw [← h, ← hbt]
          refine ⟨by rw [ht1]; exact hroot, ?_, fun data => rfl, fun data => rfl⟩
          intro g hg
          rw [ht2] at hg
          exact (hleaves g hg).1

/-! ## Witnesses: concrete evaluations discharging the claims' hypotheses -/

theorem wFin : Finalize hW (NewMerkleTree [[1], [2], [3]]) = (mtW, none) := by
  simp [Finalize, NewMerkleTree, padBlocks, initialNodes, finalizeAux, hasChild, hashNode,
    hW, List.getLast!, mtW, leafNodeTag, internalNodeTag]

theorem wProof : Proof hW mtW (some [2]) = .ok [[7, 0, 1], [7, 1, 7, 0, 3, 7, 0, 3]] := by
  simp [Proof, mtW, findLeaf, findIdxFrom, proofLoop, Nat.log2, copyNode, hW]

theorem flat_inclusion_soundness_witness :
    Verify hW mtW (some [2]) [[7, 0, 1], [7, 1, 7, 0, 3, 7, 0, 3]] = .ok () :=
  flat_inclusion_soundness wFin (by decide) wProof

theorem finalize_postcondition_witness :
    mtW.blocks.length % 2 = 0 ∧
    mtW.blocks = (if (NewMerkleTree [[1], [2], [3]]).blocks.length % 2 = 1
                  then (NewMerkleTree [[1], [2], [3]]).blocks ++
                    [(NewMerkleTree [[1], [2], [3]]).blocks.getLast!]
                  else (NewMerkleTree [[1], [2], [3]]).blocks) ∧
    mtW.nodes.length = 2 * mtW.blocks.length - 1 ∧
    (∀ i, i < mtW.blocks.length →
      mtW.nodes.getD (mtW.nodes.length - mtW.blocks.length + i) [] =
        hashNode hW (mtW.blocks.getD i []) false) ∧
    (∀ j, 2 * j + 1 < mtW.nodes.length →
      mtW.nodes.getD j [] =
        hashNode hW (mtW.nodes.getD (2 * j + 1) [] ++ mtW.nodes.getD (2 * j + 2) []) true) ∧
    mtW.root = mtW.nodes.getD 0 [] ∧
    mtW.finalized = true :=
  finalize_postcondition wFin

theorem proof_locates_and_walks_witness :
    findLeaf mtW (some [2]) = .ok (mtW.nodes.length - mtW.blocks.length + 1) ∧
    Proof hW mtW (some [2]) =
      .ok (siblingPath mtW.nodes (mtW.nodes.length - mtW.blocks.length + 1)) :=
  proof_locates_and_walks wFin (by rfl)

theorem lifecycle_guards_witness :
    Insert mtW (some [5]) = (mtW, some .treeAlreadyFinalized) ∧
    RootHash (NewMerkleTree [[9]]) = .error .treeNotFinalized ∧
    Proof hW (NewMerkleTree [[9]]) (some [5]) = .error .treeNotFinalized ∧
    Verify hW (NewMerkleTree [[9]]) none [] = .error .treeNotFinalized ∧
    Finalize hW mtW = (mtW, some .treeAlreadyFinalized) :=
  lifecycle_guards hW mtW (NewMerkleTree [[9]]) (NewMerkleTree [[1], [2], [3]]) mtW
    [5] none [] (by rfl) (by rfl) wFin

theorem padding_equivalence_witness :
    RootHash (Finalize hW (NewMerkleTree [[1], [2], [3]])).1 =
      RootHash (Finalize hW (NewMerkleTree [[1], [2], [3], [3]])).1 :=
  padding_equivalence hW [1] [2] [3] (by decide) (by decide) (by decide)

theorem finalize_atomic_on_failure_witness :
    (Finalize hW (NewMerkleTree [])).1 = NewMerkleTree [] ∧
    (Err.emptyMerkleTree = .emptyMerkleTree ∨ Err.emptyMerkleTree = .treeAlreadyFinalized) :=
  finalize_atomic_on_failure (by rfl)

theorem nodeGraph_no_domain_separation_witness :
    noPrefixHashed hW tW.root = true ∧
    (∀ g ∈ tW.leaves, ∃ s ∈ ([⟨some [1]⟩, ⟨some [2]⟩, ⟨some [3]⟩] : List Storable),
      s.calcHash = some g.digestOf) ∧
    (∀ data : List Nat, hashNode hW data false = hW (leafNodeTag :: data)) ∧
    (∀ data : List Nat, hashNode hW data true = hW (internalNodeTag :: data)) :=
  nodeGraph_no_domain_separation hW (by rfl)

theorem verify_accepts_proof_prefixes_witness :
    Verify hW mtW (some [2]) ([[7, 0, 1], [7, 1, 7, 0, 3, 7, 0, 3]].take 1) = .ok () :=
  verify_accepts_proof_prefixes 1 wFin (by decide) wProof

theorem verify_total_no_panic_witness :
    Verify hW mtW (some [2]) [[9, 9], [8], [6, 6, 6]] = .ok () ∨
      ∃ i, Verify hW mtW (some [2]) [[9, 9], [8], [6, 6, 6]] =
        .error (.verificationMismatch i) :=
  verify_total_no_panic [[9, 9], [8], [6, 6, 6]] wFin (by decide)

end MerkleGo
